import Mathlib

/-!
Verification of the Cold-Email-Generator core pipeline.

The pipeline (`ColdEmailApp.process_url` in `app/main.py`) is embedded as a
total Lean function over an environment of collaborator behaviours; the
collaborators that live outside the embedded file (`clean_text` in `utils.py`,
`Chain.extract_jobs` / `Chain.write_mail` in `chains.py`,
`Portfolio.query_links` in `portfolio.py`) are modelled from the design
specification, as noted on each definition.
-/

namespace ColdEmail

/-! ## Data model -/

/-- One structured job record extracted from a page (spec §3). -/
structure JobPosting where
  role : String
  experience : String
  skills : List String
  description : String
deriving Repr, DecidableEq

/-- One portfolio catalog record: skill tags plus a sample link (spec §3). -/
structure PortfolioEntry where
  techstack : List String
  link : String
deriving Repr, DecidableEq

/-- Extraction failures: no structured payload located, or payload of the
wrong shape (spec §4.2, §7). -/
inductive ExtractionError where
  | noPayload
  | badShape
deriving Repr, DecidableEq

/-- Catalog not loaded or empty (spec §4.3, §7). -/
inductive CatalogUnavailableError where
  | catalogUnavailable
deriving Repr, DecidableEq

/-- Empty or whitespace-only generated email (spec §4.4, §7). -/
inductive CompositionError where
  | emptyEmail
deriving Repr, DecidableEq

/-- An exception observable by the pipeline's catch-all handler
(`except Exception` in `process_url`). -/
inductive Exn where
  | extraction (e : ExtractionError)
  | catalog (e : CatalogUnavailableError)
  | composition (e : CompositionError)
  | other (msg : String)
deriving Repr, DecidableEq

/-! ## TextNormalizer

Modelled from the spec: `clean_text` lives in `utils.py`, which is not part of
the embedded sources (only its caller `load_and_process_url` is).  Spec §4.1:
output has collapsed whitespace, is stripped of control characters outside the
printable range, has no leading/trailing whitespace; whitespace-only input
yields empty output.  We realise this as: split the input into maximal runs of
printable non-space characters (discarding whitespace and control characters
as separators) and re-join the runs with single spaces. -/

/-- Whitespace characters of the raw page text. -/
def isWsChar (c : Char) : Bool :=
  c == ' ' || c == '\t' || c == '\n' || c == '\r' || c == '\x0b' || c == '\x0c'

/-- Control characters outside the printable range (C0 controls and DEL). -/
def isControl (c : Char) : Bool :=
  c.toNat < 32 || c.toNat == 127

/-- Characters that survive normalization inside a word: printable and not a
space. -/
def contentChar (c : Char) : Bool :=
  !(isControl c) && !(c == ' ')

/-- Split into maximal runs of content characters; `acc` is the reversed
current run. -/
def splitWordsAux : List Char → List Char → List (List Char)
  | [], acc => if acc.isEmpty then [] else [acc.reverse]
  | c :: cs, acc =>
    if contentChar c then splitWordsAux cs (c :: acc)
    else if acc.isEmpty then splitWordsAux cs []
    else acc.reverse :: splitWordsAux cs []

/-- Maximal content-character runs of the input. -/
def splitWords (s : List Char) : List (List Char) :=
  splitWordsAux s []

/-- Join words with single spaces. -/
def joinWords : List (List Char) → List Char
  | [] => []
  | [w] => w
  | w :: x :: ws => w ++ ' ' :: joinWords (x :: ws)

/-- Modelled from the spec: the text normalizer `clean_text` of `utils.py`
(spec §4.1 `normalize`). Total by construction (the spec's "never fails"). -/
def clean_text (s : List Char) : List Char :=
  joinWords (splitWords s)

/-! ## PortfolioCatalog

Modelled from the spec: `Portfolio.load_portfolio` / `Portfolio.query_links`
live in `portfolio.py`, which is not part of the embedded sources (only the
caller `process_url` is).  Spec §4.3: the catalog is required for operation
(an empty or unloaded catalog is a fatal `CatalogUnavailableError`); an empty
skill sequence yields an empty result; otherwise the skills are embedded and
the `topK` nearest entries are returned as links in descending-similarity
order, ties broken by catalog insertion order, without duplicate links.  The
spec leaves the embedding/metric open (§9), so similarity is realised as a
concrete shared-tag score; the ordering and dedup logic is what the claims
exercise. -/

/-- Similarity score between a skill query and a catalog entry: number of
catalog tags present in the query. -/
def simScore (skills : List String) (e : PortfolioEntry) : Nat :=
  (e.techstack.filter (fun t => skills.contains t)).length

/-- Retrieval order on indexed catalog entries: higher similarity first,
ties by catalog insertion order (lower index first). -/
def rank (skills : List String) (p q : Nat × PortfolioEntry) : Prop :=
  simScore skills q.2 < simScore skills p.2 ∨
    (simScore skills p.2 = simScore skills q.2 ∧ p.1 ≤ q.1)

instance rankDecidable (skills : List String) : DecidableRel (rank skills) :=
  fun p q =>
    inferInstanceAs (Decidable (simScore skills q.2 < simScore skills p.2 ∨
      (simScore skills p.2 = simScore skills q.2 ∧ p.1 ≤ q.1)))

instance rankTotal (skills : List String) :
    IsTotal (Nat × PortfolioEntry) (rank skills) :=
  ⟨fun p q => by unfold rank; omega⟩

instance rankTrans (skills : List String) :
    IsTrans (Nat × PortfolioEntry) (rank skills) :=
  ⟨fun p q r hpq hqr => by unfold rank at *; omega⟩

/-- Drop repeated links, keeping the first (highest-ranked) occurrence. -/
def dedupKeepFirstAux (seen : List String) : List String → List String
  | [] => []
  | x :: rest =>
    if x ∈ seen then dedupKeepFirstAux seen rest
    else x :: dedupKeepFirstAux (x :: seen) rest

/-- Deduplicate keeping first occurrences. -/
def dedupKeepFirst (xs : List String) : List String :=
  dedupKeepFirstAux [] xs

/-- Modelled from the spec: `Portfolio.query_links` of `portfolio.py`
(spec §4.3 `queryLinks`, default `topK = 2`).  Catalog availability is a
precondition (the catalog "is required for operation"); otherwise an empty
skill sequence short-circuits to an empty result; otherwise the catalog is
ranked by similarity (ties by insertion order), the best `topK` entries are
taken and their links returned without duplicates. -/
def query_links (catalog : List PortfolioEntry) (skills : List String)
    (topK : Nat := 2) : Except CatalogUnavailableError (List String) :=
  if catalog.isEmpty then
    Except.error CatalogUnavailableError.catalogUnavailable
  else if skills.isEmpty then
    Except.ok []
  else
    Except.ok (dedupKeepFirst
      (((List.insertionSort (rank skills) catalog.enum).take topK).map
        (fun p => p.2.link)))

/-- Sample catalog used in concrete witnesses. -/
def sampleCatalog : List PortfolioEntry :=
  [⟨["python", "kubernetes"], "https://portfolio.example/py-k8s"⟩,
   ⟨["react", "node"], "https://portfolio.example/web"⟩]

/-! ## JobExtractor

Modelled from the spec: `Chain.extract_jobs` lives in `chains.py`, which is
not part of the embedded sources (only the caller `process_url` is).
Spec §4.2 and §9: the model's textual response is parsed for a structured
payload (a JSON array of objects with keys `role`, `experience`, `skills`,
`description`); locating the payload inside surrounding noise is abstracted
as an `Option JsonVal` input, `none` meaning no valid structured payload was
found.  A payload that is not an array of well-shaped objects is an
`ExtractionError`; missing optional fields default to empty values. -/

/-- Structured values of the model response payload. -/
inductive JsonVal where
  | str (s : String)
  | num (n : Int)
  | arr (xs : List JsonVal)
  | obj (fields : List (String × JsonVal))
  | nul

/-- First value bound to a key in an object. -/
def lookupField (fields : List (String × JsonVal)) (k : String) : Option JsonVal :=
  match fields with
  | [] => none
  | (k', v) :: rest => if k' = k then some v else lookupField rest k

/-- String payloads. -/
def asString : JsonVal → Option String
  | JsonVal.str s => some s
  | _ => none

/-- All strings of a list of string payloads, or `none`. -/
def goStrings : List JsonVal → Option (List String)
  | [] => some []
  | x :: xs =>
    match asString x, goStrings xs with
    | some s, some rest => some (s :: rest)
    | _, _ => none

/-- String-array payloads (used for the skills field). -/
def asStringList : JsonVal → Option (List String)
  | JsonVal.arr xs => goStrings xs
  | _ => none

/-- One posting parsed from one object of the payload: `role` is required (a
string); `experience`, `skills` and `description` default to empty values
when absent (spec §4.2). -/
def jobOfJson : JsonVal → Option JobPosting
  | JsonVal.obj fields =>
    match lookupField fields "role" with
    | some (JsonVal.str role) =>
      some
        { role := role
          experience :=
            match lookupField fields "experience" with
            | some (JsonVal.str e) => e
            | _ => ""
          skills :=
            match lookupField fields "skills" with
            | some v => (asStringList v).getD []
            | none => []
          description :=
            match lookupField fields "description" with
            | some (JsonVal.str d) => d
            | _ => "" }
    | _ => none
  | _ => none

/-- All postings of an array payload, or `none` if any element is
ill-shaped. -/
def jobsOfJson : List JsonVal → Option (List JobPosting)
  | [] => some []
  | x :: xs =>
    match jobOfJson x, jobsOfJson xs with
    | some j, some rest => some (j :: rest)
    | _, _ => none

/-- Modelled from the spec: `Chain.extract_jobs` of `chains.py` (spec §4.2
`extract`).  `none` models a model response with no valid structured payload;
a payload that is not an array of well-shaped posting objects is rejected. -/
def extract_jobs (payload : Option JsonVal) :
    Except ExtractionError (List JobPosting) :=
  match payload with
  | none => Except.error ExtractionError.noPayload
  | some (JsonVal.arr xs) =>
    match jobsOfJson xs with
    | some jobs => Except.ok jobs
    | none => Except.error ExtractionError.badShape
  | some _ => Except.error ExtractionError.badShape

/-- A payload matching the expected shape: an array whose elements all parse
as postings. -/
def wellShapedPayload (payload : Option JsonVal) : Prop :=
  ∃ xs, payload = some (JsonVal.arr xs) ∧ (jobsOfJson xs).isSome

/-! ## EmailComposer -/

/-- Blank strings: empty or consisting only of whitespace. -/
def isBlank (s : String) : Bool :=
  s.data.all Char.isWhitespace

/-- Modelled from the spec: the response post-processing of
`Chain.write_mail` in `chains.py` (spec §4.4 `compose`): an empty or
whitespace-only model completion is a `CompositionError`; otherwise the raw
email text is returned unchanged. -/
def write_mail (modelResponse : String) : Except CompositionError String :=
  if isBlank modelResponse then Except.error CompositionError.emptyEmail
  else Except.ok modelResponse

/-! ## Pipeline (orchestrator)

Embedding of `ColdEmailApp.process_url` and `load_and_process_url` from
`app/main.py`.  The collaborator calls (`chain.extract_jobs`,
`portfolio.query_links`, `chain.write_mail`) are provided by an environment;
an `Except.error` models the Python call raising an exception.  The trace
records the stages as they happen; `Event.errorReported` is the `st.error`
rendering performed by the catch-all `except Exception` handler
(main.py lines 282-285). -/

/-- Collaborator behaviours for one run. -/
structure Env where
  raw : Option (List Char)
  extract : List Char → Except Exn (List JobPosting)
  query : List String → Except Exn (List String)
  compose : JobPosting → List String → Except Exn String

/-- Observable stages of a run. -/
inductive Event where
  | loadFailed
  | normalized
  | extracted (count : Nat)
  | warnedNoJobs
  | matched (idx : Nat)
  | composed (idx : Nat)
  | errorReported (e : Exn)
deriving Repr, DecidableEq

/-- Terminal state of a run.  `raised` models an exception escaping
`process_url` to its caller; the embedding shows it is never produced. -/
inductive Outcome where
  | loadFailed
  | zeroJobs
  | done (emails : List String)
  | handled (e : Exn)
  | raised (e : Exn)
deriving Repr, DecidableEq

/-- Result list of a successfully terminating run: zero-posting runs warn and
return with zero results (main.py lines 211-213), full runs return their
emails.  Failed or error-handled runs carry no result list. -/
def successResults : Outcome → Option (List String)
  | Outcome.zeroJobs => some []
  | Outcome.done emails => some emails
  | _ => none

/-- Embedding of `load_and_process_url` (main.py lines 67-93): loader errors
and empty page data become `none` (the function catches its own exceptions),
otherwise the raw content is normalized by `clean_text`. -/
def load_and_process_url (raw : Option (List Char)) : Option (List Char) :=
  raw.map clean_text

/-- The per-posting loop of `process_url` (main.py lines 232-273): for each
posting, `query_links` then `write_mail`; an exception from either ends the
loop and is re-raised to the surrounding handler.  Returns the per-posting
events, the composed emails, and the escaping exception if any. -/
def emailLoop (env : Env) : Nat → List JobPosting →
    List Event × List String × Option Exn
  | _, [] => ([], [], none)
  | i, job :: rest =>
    match env.query job.skills with
    | Except.error e => ([], [], some e)
    | Except.ok links =>
      match env.compose job links with
      | Except.error e => ([Event.matched i], [], some e)
      | Except.ok email =>
        let r := emailLoop env (i + 1) rest
        (Event.matched i :: Event.composed i :: r.1, email :: r.2.1, r.2.2)

/-- Embedding of `ColdEmailApp.process_url` (main.py lines 179-285): load and
normalize, bail out on missing content, extract postings (zero postings warn
and return), then match and compose per posting; any exception inside the
body reaches the catch-all handler, which renders an error report and
returns normally. -/
def process_url (env : Env) : List Event × Outcome :=
  match load_and_process_url env.raw with
  | none => ([Event.loadFailed], Outcome.loadFailed)
  | some cleaned =>
    if cleaned.isEmpty then
      ([Event.normalized, Event.loadFailed], Outcome.loadFailed)
    else
      match env.extract cleaned with
      | Except.error e =>
        ([Event.normalized, Event.errorReported e], Outcome.handled e)
      | Except.ok [] =>
        ([Event.normalized, Event.extracted 0, Event.warnedNoJobs],
          Outcome.zeroJobs)
      | Except.ok (job :: jobs) =>
        let r := emailLoop env 0 (job :: jobs)
        match r.2.2 with
        | some e =>
          (Event.normalized :: Event.extracted (job :: jobs).length ::
              (r.1 ++ [Event.errorReported e]),
            Outcome.handled e)
        | none =>
          (Event.normalized :: Event.extracted (job :: jobs).length :: r.1,
            Outcome.done r.2.1)

/-- Raw page content used by the concrete environments. -/
def rawPage : List Char := ['J', 'o', 'b', 's']

/-- First sample posting. -/
def jobA : JobPosting :=
  { role := "Backend Engineer", experience := "5 years",
    skills := ["python"], description := "Server work" }

/-- Second sample posting. -/
def jobB : JobPosting :=
  { role := "Data Engineer", experience := "3 years",
    skills := ["sql"], description := "Pipelines" }

/-- Environment in which two postings are extracted and the model returns an
empty string for the first posting's email (spec §8 scenario 4 with the
failing posting first), so composing it raises `CompositionError`. -/
def envTwoPostings : Env :=
  { raw := some rawPage
    extract := fun _ => Except.ok [jobA, jobB]
    query := fun _ => Except.ok ["https://portfolio.example/py-k8s"]
    compose := fun job _ =>
      match write_mail (if job = jobA then "" else "Offer email body") with
      | Except.ok email => Except.ok email
      | Except.error e => Except.error (Exn.composition e) }

/-- Environment realising spec §8 scenario 4 exactly: two postings extracted,
the model returns an empty string for the second posting's email. -/
def envScenario4 : Env :=
  { raw := some rawPage
    extract := fun _ => Except.ok [jobA, jobB]
    query := fun _ => Except.ok ["https://portfolio.example/py-k8s"]
    compose := fun job _ =>
      match write_mail (if job = jobB then "" else "Offer email body") with
      | Except.ok email => Except.ok email
      | Except.error e => Except.error (Exn.composition e) }

/-- Environment in which extraction finds no postings. -/
def envNoJobs : Env :=
  { raw := some rawPage
    extract := fun _ => Except.ok []
    query := fun _ => Except.ok []
    compose := fun _ _ => Except.ok "unused" }

/-- Environment in which the catalog is unavailable: every `query_links`
call raises `CatalogUnavailableError`. -/
def envNoCatalog : Env :=
  { raw := some rawPage
    extract := fun _ => Except.ok [jobA, jobB]
    query := fun _ =>
      Except.error (Exn.catalog CatalogUnavailableError.catalogUnavailable)
    compose := fun _ _ => Except.ok "unused" }

/-! ## Lemmas about the normalizer -/

lemma contentChar_ne_space {c : Char} (h : contentChar c = true) : c ≠ ' ' := by
  intro hc
  subst hc
  simp [contentChar] at h

lemma contentChar_not_control {c : Char} (h : contentChar c = true) :
    isControl c = false := by
  have := h
  simp only [contentChar, Bool.and_eq_true, Bool.not_eq_true'] at this
  exact this.1

lemma contentChar_eq_false_of_isWsChar {c : Char} (h : isWsChar c = true) :
    contentChar c = false := by
  simp only [isWsChar, Bool.or_eq_true, beq_iff_eq] at h
  rcases h with ((((h | h) | h) | h) | h) | h <;> subst h <;> decide

lemma splitWordsAux_all_sep :
    ∀ s : List Char, (∀ c ∈ s, contentChar c = false) →
      splitWordsAux s [] = []
  | [], _ => rfl
  | c :: cs, h => by
    have hc : contentChar c = false := h c (List.mem_cons_self c cs)
    simp only [splitWordsAux, hc, Bool.false_eq_true, if_false, List.isEmpty_nil,
      if_true]
    exact splitWordsAux_all_sep cs fun d hd => h d (List.mem_cons_of_mem c hd)

lemma splitWordsAux_sound :
    ∀ (s : List Char) (acc : List Char), (∀ c ∈ acc, contentChar c = true) →
      ∀ w ∈ splitWordsAux s acc, w ≠ [] ∧ ∀ c ∈ w, contentChar c = true := by
  intro s
  induction s with
  | nil =>
    intro acc hacc w hw
    by_cases h : acc = []
    · subst h
      simp [splitWordsAux] at hw
    · have : acc.isEmpty = false := by simpa [List.isEmpty_iff] using h
      simp only [splitWordsAux, this, Bool.false_eq_true, if_false,
        List.mem_singleton] at hw
      subst hw
      refine ⟨by simpa using h, ?_⟩
      intro c hc
      exact hacc c (List.mem_reverse.mp hc)
  | cons c cs ih =>
    intro acc hacc w hw
    by_cases hc : contentChar c = true
    · simp only [splitWordsAux, hc, if_true] at hw
      refine ih (c :: acc) ?_ w hw
      intro d hd
      rcases List.mem_cons.mp hd with h | h
      · subst h; exact hc
      · exact hacc d h
    · simp only [splitWordsAux, hc, if_false] at hw
      by_cases h : acc = []
      · subst h
        simp only [List.isEmpty_nil, if_true] at hw
        exact ih [] (by simp) w hw
      · have : acc.isEmpty = false := by simpa [List.isEmpty_iff] using h
        simp only [this, Bool.false_eq_true, if_false, List.mem_cons] at hw
        rcases hw with hw | hw
        · subst hw
          refine ⟨by simpa using h, ?_⟩
          intro d hd
          exact hacc d (List.mem_reverse.mp hd)
        · exact ih [] (by simp) w hw

/-- Every word produced by `splitWords` is a nonempty run of content
characters. -/
lemma splitWords_sound (s : List Char) :
    ∀ w ∈ splitWords s, w ≠ [] ∧ ∀ c ∈ w, contentChar c = true :=
  splitWordsAux_sound s [] (by simp)

lemma joinWords_ne_nil {w : List Char} (hw : w ≠ []) :
    ∀ ws, joinWords (w :: ws) ≠ []
  | [] => hw
  | x :: ws => by
    simp only [joinWords]
    intro h
    exact hw (List.append_eq_nil.mp h).1

lemma mem_joinWords :
    ∀ ws : List (List Char), (∀ w ∈ ws, ∀ c ∈ w, contentChar c = true) →
      ∀ c ∈ joinWords ws, contentChar c = true ∨ c = ' '
  | [], _, c, hc => by simp [joinWords] at hc
  | [w], h, c, hc => Or.inl (h w (by simp) c (by simpa [joinWords] using hc))
  | w :: x :: ws, h, c, hc => by
    simp only [joinWords, List.mem_append, List.mem_cons] at hc
    rcases hc with hc | hc | hc
    · exact Or.inl (h w (by simp) c hc)
    · exact Or.inr hc
    · exact mem_joinWords (x :: ws) (fun v hv => h v (List.mem_cons_of_mem w hv)) c hc

lemma joinWords_head :
    ∀ ws : List (List Char), (∀ w ∈ ws, w ≠ [] ∧ ∀ c ∈ w, contentChar c = true) →
      (joinWords ws).head? ≠ some ' '
  | [], _ => by simp [joinWords]
  | [w], h => by
    intro hh
    obtain ⟨hne, hcont⟩ := h w (by simp)
    have hmem : ' ' ∈ w := by
      cases w with
      | nil => exact absurd rfl hne
      | cons a t =>
        simp only [joinWords, List.head?_cons, Option.some.injEq] at hh
        subst hh
        exact List.mem_cons_self _ _
    exact contentChar_ne_space (hcont ' ' hmem) rfl
  | w :: x :: ws, h => by
    obtain ⟨hne, hcont⟩ := h w (by simp)
    cases w with
    | nil => exact absurd rfl hne
    | cons a t =>
      simp only [joinWords, List.cons_append, List.head?_cons, ne_eq,
        Option.some.injEq]
      intro hh
      subst hh
      exact contentChar_ne_space (hcont ' ' (List.mem_cons_self _ _)) rfl

lemma getLast?_mem : ∀ (l : List Char) (a : Char), l.getLast? = some a → a ∈ l
  | [], a, h => by simp at h
  | [b], a, h => by
    simp only [List.getLast?_singleton, Option.some.injEq] at h
    subst h
    simp
  | b :: c :: t, a, h => by
    rw [List.getLast?_cons_cons] at h
    exact List.mem_cons_of_mem b (getLast?_mem (c :: t) a h)

lemma joinWords_getLast :
    ∀ ws : List (List Char), (∀ w ∈ ws, w ≠ [] ∧ ∀ c ∈ w, contentChar c = true) →
      (joinWords ws).getLast? ≠ some ' '
  | [], _ => by simp [joinWords]
  | [w], h => by
    intro hh
    obtain ⟨hne, hcont⟩ := h w (by simp)
    have hmem : ' ' ∈ w := getLast?_mem w ' ' (by simpa [joinWords] using hh)
    exact contentChar_ne_space (hcont ' ' hmem) rfl
  | w :: x :: ws, h => by
    intro hh
    have hxs : joinWords (x :: ws) ≠ [] :=
      joinWords_ne_nil (h x (by simp)).1 ws
    have hrec := joinWords_getLast (x :: ws)
      (fun v hv => h v (List.mem_cons_of_mem w hv))
    apply hrec
    rw [← hh]
    simp only [joinWords]
    rw [List.getLast?_append_of_ne_nil w (by simp)]
    cases hj : joinWords (x :: ws) with
    | nil => exact absurd hj hxs
    | cons b t => rw [List.getLast?_cons_cons]

lemma chain'_of_no_space {l : List Char} (h : ∀ c ∈ l, c ≠ ' ') :
    List.Chain' (fun a b => ¬(a = ' ' ∧ b = ' ')) l := by
  induction l with
  | nil => simp
  | cons a t ih =>
    cases t with
    | nil => simp
    | cons b u =>
      refine List.Chain'.cons ?_ (ih fun c hc => h c (List.mem_cons_of_mem a hc))
      intro hab
      exact h a (List.mem_cons_self _ _) hab.1

lemma joinWords_chain :
    ∀ ws : List (List Char), (∀ w ∈ ws, w ≠ [] ∧ ∀ c ∈ w, contentChar c = true) →
      List.Chain' (fun a b => ¬(a = ' ' ∧ b = ' ')) (joinWords ws)
  | [], _ => by simp [joinWords]
  | [w], h => by
    simp only [joinWords]
    exact chain'_of_no_space fun c hc =>
      contentChar_ne_space ((h w (by simp)).2 c hc)
  | w :: x :: ws, h => by
    simp only [joinWords]
    rw [List.chain'_append]
    refine ⟨?_, ?_, ?_⟩
    · exact chain'_of_no_space fun c hc =>
        contentChar_ne_space ((h w (by simp)).2 c hc)
    · rw [List.chain'_cons']
      refine ⟨?_, joinWords_chain (x :: ws)
        (fun v hv => h v (List.mem_cons_of_mem w hv))⟩
      intro y hy hsp
      exact joinWords_head (x :: ws)
        (fun v hv => h v (List.mem_cons_of_mem w hv)) (by rw [hy, hsp.2])
    · intro a ha b hb hab
      have hmem : a ∈ w := getLast?_mem w a ha
      exact contentChar_ne_space ((h w (by simp)).2 a hmem) hab.1

/-! ## Claim theorems for the normalizer -/

/-- C4: `normalize` (embodied by `clean_text`) is total by construction;
whitespace-only or empty input yields the empty output; every output has no
control characters outside the printable range, collapsed whitespace (no two
adjacent spaces), and no leading or trailing whitespace. -/
theorem clean_text_spec (s : List Char) :
    ((∀ c ∈ s, isWsChar c = true) → clean_text s = []) ∧
    (∀ c ∈ clean_text s, isControl c = false) ∧
    List.Chain' (fun a b => ¬(a = ' ' ∧ b = ' ')) (clean_text s) ∧
    (clean_text s).head? ≠ some ' ' ∧ (clean_text s).getLast? ≠ some ' ' := by
  have hsound := splitWords_sound s
  refine ⟨?_, ?_, ?_, ?_, ?_⟩
  · intro hws
    unfold clean_text splitWords
    rw [splitWordsAux_all_sep s fun c hc => contentChar_eq_false_of_isWsChar (hws c hc)]
    rfl
  · intro c hc
    rcases mem_joinWords (splitWords s) (fun w hw => (hsound w hw).2) c hc with h | h
    · exact contentChar_not_control h
    · subst h; decide
  · exact joinWords_chain (splitWords s) hsound
  · exact joinWords_head (splitWords s) hsound
  · exact joinWords_getLast (splitWords s) hsound

/-- Witness for C4 at concrete inputs: a whitespace-only input cleans to
empty, and a noisy input's cleaning satisfies the head condition. -/
theorem clean_text_spec_witness :
    clean_text (' ' :: '\n' :: '\t' :: []) = [] ∧
    (clean_text (' ' :: 'a' :: '\x01' :: 'b' :: ' ' :: ' ' :: 'c' :: [])).head? ≠ some ' ' :=
  ⟨(clean_text_spec _).1 (by decide), (clean_text_spec _).2.2.2.1⟩

/-! ## Lemmas about the catalog -/

lemma dedupKeepFirstAux_sound :
    ∀ (xs seen : List String),
      (dedupKeepFirstAux seen xs).Nodup ∧
        ∀ y ∈ dedupKeepFirstAux seen xs, y ∉ seen
  | [], seen => by simp [dedupKeepFirstAux]
  | x :: rest, seen => by
    by_cases hx : x ∈ seen
    · simp only [dedupKeepFirstAux, hx, if_true]
      exact dedupKeepFirstAux_sound rest seen
    · simp only [dedupKeepFirstAux, hx, if_false]
      obtain ⟨hnd, hns⟩ := dedupKeepFirstAux_sound rest (x :: seen)
      refine ⟨List.nodup_cons.mpr ⟨?_, hnd⟩, ?_⟩
      · intro hmem
        exact hns x hmem (List.mem_cons_self _ _)
      · intro y hy
        rcases List.mem_cons.mp hy with h | h
        · subst h; exact hx
        · intro hseen
          exact hns y h (List.mem_cons_of_mem x hseen)

/-- Deduplicated link lists contain no duplicates. -/
lemma dedupKeepFirst_nodup (xs : List String) : (dedupKeepFirst xs).Nodup :=
  (dedupKeepFirstAux_sound xs []).1

/-! ## Claim theorems for the catalog -/

/-- C6: `queryLinks` is deterministic — two calls with the identical skill
sequence against the unchanged catalog return the identical ordered link
sequence. -/
theorem query_links_deterministic (catalog : List PortfolioEntry)
    (skills : List String) (topK : Nat)
    (r₁ r₂ : Except CatalogUnavailableError (List String))
    (h₁ : query_links catalog skills topK = r₁)
    (h₂ : query_links catalog skills topK = r₂) : r₁ = r₂ :=
  h₁ ▸ h₂

/-- Witness for C6 at a concrete catalog and skill sequence. -/
theorem query_links_deterministic_witness :
    query_links sampleCatalog ["python"] 2 = query_links sampleCatalog ["python"] 2 :=
  query_links_deterministic sampleCatalog ["python"] 2
    (query_links sampleCatalog ["python"] 2) (query_links sampleCatalog ["python"] 2)
    rfl rfl

/-- Counterexample to C3 as stated: "regardless of the catalog contents"
fails for the empty (unloaded) catalog, where the call reports
`CatalogUnavailableError` instead of returning an empty link sequence. -/
theorem query_links_empty_skills_counterexample :
    query_links [] [] =
        Except.error CatalogUnavailableError.catalogUnavailable ∧
      query_links [] [] ≠ Except.ok [] := by
  refine ⟨rfl, ?_⟩
  intro h
  rw [show query_links [] [] =
      Except.error CatalogUnavailableError.catalogUnavailable from rfl] at h
  exact Except.noConfusion h

/-- C3 (amended): for every loaded, non-empty catalog, `queryLinks` with an
empty skill sequence returns the empty link sequence — never a default or
fallback link. -/
theorem query_links_empty_skills (catalog : List PortfolioEntry)
    (skills : List String) (topK : Nat) (hcat : catalog ≠ [])
    (hsk : skills = []) : query_links catalog skills topK = Except.ok [] := by
  subst hsk
  unfold query_links
  rw [if_neg (by simpa [List.isEmpty_iff] using hcat)]
  simp

/-- Witness for C3 (amended) at a concrete catalog. -/
theorem query_links_empty_skills_witness :
    query_links sampleCatalog [] 5 = Except.ok [] :=
  query_links_empty_skills sampleCatalog [] 5 (by decide) rfl

/-- C7: for every non-empty skill sequence (on an available catalog), the
returned links have no duplicates and are the links of a selection of indexed
catalog entries ordered by descending similarity, ties broken by catalog
insertion order. -/
theorem query_links_ranked (catalog : List PortfolioEntry)
    (skills : List String) (topK : Nat) (hcat : catalog ≠ [])
    (hsk : skills ≠ []) :
    ∃ links, query_links catalog skills topK = Except.ok links ∧
      links.Nodup ∧
      ∃ ps : List (Nat × PortfolioEntry),
        links = dedupKeepFirst (ps.map (fun p => p.2.link)) ∧
        List.Sorted (rank skills) ps ∧
        ∀ p ∈ ps, catalog[p.1]? = some p.2 := by
  refine ⟨dedupKeepFirst
    (((List.insertionSort (rank skills) catalog.enum).take topK).map
      (fun p => p.2.link)), ?_, dedupKeepFirst_nodup _, ?_⟩
  · unfold query_links
    rw [if_neg (by simpa [List.isEmpty_iff] using hcat),
      if_neg (by simpa [List.isEmpty_iff] using hsk)]
  · refine ⟨(List.insertionSort (rank skills) catalog.enum).take topK,
      rfl, ?_, ?_⟩
    · exact List.Pairwise.sublist (List.take_sublist _ _)
        (List.sorted_insertionSort (rank skills) catalog.enum)
    · intro p hp
      have hp' : p ∈ List.insertionSort (rank skills) catalog.enum :=
        (List.take_sublist _ _).subset hp
      have hpe : p ∈ catalog.enum := (List.mem_insertionSort _).mp hp'
      exact List.mem_enum_iff_getElem?.mp hpe

/-- Witness for C7 at a concrete catalog and skill sequence. -/
theorem query_links_ranked_witness :
    ∃ links, query_links sampleCatalog ["python"] 2 = Except.ok links ∧
      links.Nodup ∧
      ∃ ps : List (Nat × PortfolioEntry),
        links = dedupKeepFirst (ps.map (fun p => p.2.link)) ∧
        List.Sorted (rank ["python"]) ps ∧
        ∀ p ∈ ps, sampleCatalog[p.1]? = some p.2 :=
  query_links_ranked sampleCatalog ["python"] 2 (by decide) (by decide)

/-! ## Lemmas and claim theorems for the extractor -/

lemma jobsOfJson_eq_nil (xs : List JsonVal)
    (h : jobsOfJson xs = some []) : xs = [] := by
  cases xs with
  | nil => rfl
  | cons x rest =>
    exfalso
    cases hx : jobOfJson x with
    | none => rw [jobsOfJson, hx] at h; exact Option.noConfusion h
    | some j =>
      cases hr : jobsOfJson rest with
      | none => rw [jobsOfJson, hx, hr] at h; exact Option.noConfusion h
      | some l =>
        rw [jobsOfJson, hx, hr] at h
        exact List.noConfusion (Option.some.inj h)

/-- C5: a model response with no valid structured payload, or whose payload
does not match the expected shape, makes `extract` report an
`ExtractionError` (never a guessed result); an extraction error is
distinguishable from a successful extraction of zero postings, which arises
exactly from the well-shaped empty array payload. -/
theorem extract_jobs_spec (payload : Option JsonVal) :
    (¬ wellShapedPayload payload →
      ∃ e, extract_jobs payload = Except.error e) ∧
    (extract_jobs payload = Except.ok [] ↔
      payload = some (JsonVal.arr [])) := by
  cases payload with
  | none =>
    refine ⟨fun _ => ⟨ExtractionError.noPayload, rfl⟩, ?_⟩
    constructor
    · intro h; exact Except.noConfusion h
    · intro h; exact Option.noConfusion h
  | some v =>
    cases v with
    | arr xs =>
      cases hj : jobsOfJson xs with
      | none =>
        refine ⟨fun _ => ⟨ExtractionError.badShape, by simp [extract_jobs, hj]⟩, ?_⟩
        constructor
        · intro h
          rw [show extract_jobs (some (JsonVal.arr xs)) =
              Except.error ExtractionError.badShape by simp [extract_jobs, hj]] at h
          exact Except.noConfusion h
        · intro h
          have hxs : xs = [] := by
            have := Option.some.inj h
            exact (JsonVal.arr.inj this)
          subst hxs
          simp [jobsOfJson] at hj
      | some jobs =>
        refine ⟨fun hns => absurd ⟨xs, rfl, by rw [hj]; rfl⟩ hns, ?_⟩
        constructor
        · intro h
          rw [show extract_jobs (some (JsonVal.arr xs)) = Except.ok jobs by
            simp [extract_jobs, hj]] at h
          have hjobs : jobs = [] := Except.ok.inj h
          subst hjobs
          rw [jobsOfJson_eq_nil xs hj]
        · intro h
          have hxs : xs = [] := JsonVal.arr.inj (Option.some.inj h)
          subst hxs
          simp only [jobsOfJson, Option.some.injEq] at hj
          subst hj
          simp [extract_jobs, jobsOfJson]
    | str s =>
      refine ⟨fun _ => ⟨ExtractionError.badShape, rfl⟩, ?_⟩
      constructor
      · intro h; exact Except.noConfusion h
      · intro h; exact JsonVal.noConfusion (Option.some.inj h)
    | num n =>
      refine ⟨fun _ => ⟨ExtractionError.badShape, rfl⟩, ?_⟩
      constructor
      · intro h; exact Except.noConfusion h
      · intro h; exact JsonVal.noConfusion (Option.some.inj h)
    | obj fields =>
      refine ⟨fun _ => ⟨ExtractionError.badShape, rfl⟩, ?_⟩
      constructor
      · intro h; exact Except.noConfusion h
      · intro h; exact JsonVal.noConfusion (Option.some.inj h)
    | nul =>
      refine ⟨fun _ => ⟨ExtractionError.badShape, rfl⟩, ?_⟩
      constructor
      · intro h; exact Except.noConfusion h
      · intro h; exact JsonVal.noConfusion (Option.some.inj h)

/-- Witness for C5: at the payload-free response, extraction fails with an
error, and the empty-array payload extracts zero postings. -/
theorem extract_jobs_spec_witness :
    (∃ e, extract_jobs (some (JsonVal.str "no structured data")) =
      Except.error e) ∧
    extract_jobs (some (JsonVal.arr [])) = Except.ok [] :=
  ⟨(extract_jobs_spec (some (JsonVal.str "no structured data"))).1
      (by
        rintro ⟨xs, hx, -⟩
        exact JsonVal.noConfusion (Option.some.inj hx)),
    (extract_jobs_spec (some (JsonVal.arr []))).2.mpr rfl⟩

/-! ## Lemmas about the pipeline -/

/-- Exhaustive inversion of `process_url`: the six possible run shapes. -/
lemma process_url_cases (env : Env) :
    (env.raw = none ∧
      process_url env = ([Event.loadFailed], Outcome.loadFailed)) ∨
    (∃ raw, env.raw = some raw ∧ clean_text raw = [] ∧
      process_url env =
        ([Event.normalized, Event.loadFailed], Outcome.loadFailed)) ∨
    (∃ raw e, env.raw = some raw ∧ clean_text raw ≠ [] ∧
      env.extract (clean_text raw) = Except.error e ∧
      process_url env =
        ([Event.normalized, Event.errorReported e], Outcome.handled e)) ∨
    (∃ raw, env.raw = some raw ∧ clean_text raw ≠ [] ∧
      env.extract (clean_text raw) = Except.ok [] ∧
      process_url env =
        ([Event.normalized, Event.extracted 0, Event.warnedNoJobs],
          Outcome.zeroJobs)) ∨
    (∃ raw job jobs e, env.raw = some raw ∧ clean_text raw ≠ [] ∧
      env.extract (clean_text raw) = Except.ok (job :: jobs) ∧
      (emailLoop env 0 (job :: jobs)).2.2 = some e ∧
      process_url env =
        (Event.normalized :: Event.extracted (job :: jobs).length ::
            ((emailLoop env 0 (job :: jobs)).1 ++ [Event.errorReported e]),
          Outcome.handled e)) ∨
    (∃ raw job jobs, env.raw = some raw ∧ clean_text raw ≠ [] ∧
      env.extract (clean_text raw) = Except.ok (job :: jobs) ∧
      (emailLoop env 0 (job :: jobs)).2.2 = none ∧
      process_url env =
        (Event.normalized :: Event.extracted (job :: jobs).length ::
            (emailLoop env 0 (job :: jobs)).1,
          Outcome.done (emailLoop env 0 (job :: jobs)).2.1)) := by
  cases hraw : env.raw with
  | none =>
    left
    exact ⟨rfl, by simp [process_url, load_and_process_url, hraw]⟩
  | some raw =>
    by_cases hcl : clean_text raw = []
    · right; left
      exact ⟨raw, rfl, hcl,
        by simp [process_url, load_and_process_url, hraw, hcl]⟩
    · have hemp : (clean_text raw).isEmpty = false := by
        simpa [List.isEmpty_iff] using hcl
      cases hex : env.extract (clean_text raw) with
      | error e =>
        right; right; left
        exact ⟨raw, e, rfl, hcl, hex,
          by simp [process_url, load_and_process_url, hraw, hemp, hex]⟩
      | ok jobs =>
        cases jobs with
        | nil =>
          right; right; right; left
          exact ⟨raw, rfl, hcl, hex,
            by simp [process_url, load_and_process_url, hraw, hemp, hex]⟩
        | cons job rest =>
          cases hloop : (emailLoop env 0 (job :: rest)).2.2 with
          | some e =>
            right; right; right; right; left
            exact ⟨raw, job, rest, e, rfl, hcl, hex, hloop,
              by simp [process_url, load_and_process_url, hraw, hemp, hex, hloop]⟩
          | none =>
            right; right; right; right; right
            exact ⟨raw, job, rest, rfl, hcl, hex, hloop,
              by simp [process_url, load_and_process_url, hraw, hemp, hex, hloop]⟩

/-- Every `composed` event of the per-posting loop is preceded by the
`matched` event of the same posting. -/
lemma emailLoop_composed_after_matched (env : Env) :
    ∀ (js : List JobPosting) (i k m : Nat),
      (emailLoop env i js).1[k]? = some (Event.composed m) →
      ∃ j, j < k ∧ (emailLoop env i js).1[j]? = some (Event.matched m)
  | [], i, k, m => by
    intro h
    simp [emailLoop] at h
  | job :: rest, i, k, m => by
    intro h
    cases hq : env.query job.skills with
    | error e =>
      simp only [emailLoop, hq] at h
      simp at h
    | ok links =>
      cases hc : env.compose job links with
      | error e =>
        simp only [emailLoop, hq, hc] at h
        cases k with
        | zero => simp at h
        | succ k' => simp at h
      | ok email =>
        simp only [emailLoop, hq, hc] at h
        cases k with
        | zero => simp at h
        | succ k' =>
          cases k' with
          | zero =>
            simp only [List.getElem?_cons_succ, List.getElem?_cons_zero,
              Option.some.injEq] at h
            have him : i = m := Event.composed.inj h
            refine ⟨0, Nat.zero_lt_succ _, ?_⟩
            simp only [emailLoop, hq, hc]
            simp [him]
          | succ k'' =>
            obtain ⟨j, hj, hget⟩ := emailLoop_composed_after_matched env rest
              (i + 1) k'' m (by simpa using h)
            refine ⟨j + 2, by omega, ?_⟩
            simp only [emailLoop, hq, hc]
            simpa using hget

/-- The per-posting loop emits only `matched` and `composed` events. -/
lemma emailLoop_events (env : Env) :
    ∀ (js : List JobPosting) (i : Nat), ∀ ev ∈ (emailLoop env i js).1,
      (∃ j, ev = Event.matched j) ∨ ∃ j, ev = Event.composed j
  | [], i, ev => by
    intro h
    simp [emailLoop] at h
  | job :: rest, i, ev => by
    intro h
    cases hq : env.query job.skills with
    | error e =>
      simp only [emailLoop, hq] at h
      simp at h
    | ok links =>
      cases hc : env.compose job links with
      | error e =>
        simp only [emailLoop, hq, hc] at h
        simp only [List.mem_singleton] at h
        exact Or.inl ⟨i, h⟩
      | ok email =>
        simp only [emailLoop, hq, hc, List.mem_cons] at h
        rcases h with h | h | h
        · exact Or.inl ⟨i, h⟩
        · exact Or.inr ⟨i, h⟩
        · exact emailLoop_events env rest (i + 1) ev h

/-- If the catalog query always fails, the per-posting loop emits no events,
composes no email, and re-raises the query error as soon as there is a
posting. -/
lemma emailLoop_query_fails (env : Env) (e : Exn)
    (hq : ∀ s, env.query s = Except.error e) :
    ∀ (js : List JobPosting) (i : Nat),
      (emailLoop env i js).1 = [] ∧ (emailLoop env i js).2.1 = [] ∧
        (emailLoop env i js).2.2 = if js.isEmpty then none else some e
  | [], i => by simp [emailLoop]
  | job :: rest, i => by
    simp only [emailLoop, hq job.skills]
    simp

/-- If the first failure in the loop is a composition failure at relative
position `k`, the loop ends there: postings before `k` are matched and
composed, no posting at or after `k` is composed, and the composition error
escapes. -/
lemma emailLoop_fail_at (env : Env) :
    ∀ (js : List JobPosting) (i k : Nat) (jk : JobPosting) (e : Exn),
      js[k]? = some jk →
      (∀ p, p < k → ∀ jp, js[p]? = some jp →
        ∃ l em, env.query jp.skills = Except.ok l ∧
          env.compose jp l = Except.ok em) →
      (∃ l, env.query jk.skills = Except.ok l ∧
        env.compose jk l = Except.error e) →
      (emailLoop env i js).2.2 = some e ∧
        (∀ p, p < k → Event.composed (i + p) ∈ (emailLoop env i js).1) ∧
        (∀ q, Event.composed q ∈ (emailLoop env i js).1 → q < i + k)
  | [], i, k, jk, e => by
    intro hjk _ _
    simp at hjk
  | job :: rest, i, k, jk, e => by
    intro hjk hok hfail
    cases k with
    | zero =>
      have hj : job = jk := by simpa using hjk
      subst hj
      obtain ⟨l, hql, hcl⟩ := hfail
      refine ⟨?_, fun p hp => absurd hp (Nat.not_lt_zero p), ?_⟩
      · simp [emailLoop, hql, hcl]
      · intro q hqmem
        simp [emailLoop, hql, hcl] at hqmem
    | succ k' =>
      obtain ⟨l, em, hql, hcl⟩ := hok 0 (Nat.zero_lt_succ k') job (by simp)
      have hjk' : rest[k']? = some jk := by simpa using hjk
      have hok' : ∀ p, p < k' → ∀ jp, rest[p]? = some jp →
          ∃ l em, env.query jp.skills = Except.ok l ∧
            env.compose jp l = Except.ok em := by
        intro p hp jp hjp
        exact hok (p + 1) (by omega) jp (by simpa using hjp)
      obtain ⟨h1, h2, h3⟩ :=
        emailLoop_fail_at env rest (i + 1) k' jk e hjk' hok' hfail
      simp only [emailLoop, hql, hcl]
      refine ⟨h1, ?_, ?_⟩
      · intro p hp
        cases p with
        | zero => simp
        | succ p' =>
          have : Event.composed ((i + 1) + p') ∈ (emailLoop env (i + 1) rest).1 :=
            h2 p' (by omega)
          have heq : (i + 1) + p' = i + (p' + 1) := by omega
          rw [heq] at this
          simp [this]
      · intro q hqmem
        simp only [List.mem_cons] at hqmem
        rcases hqmem with h | h | h
        · exact absurd h (by simp)
        · have : q = i := Event.composed.inj h
          omega
        · have := h3 q h
          omega

/-- Any `extracted` event in a trace beginning with `normalized` is preceded
by that `normalized` event. -/
lemma normalized_first (rest : List Event) :
    ∀ (k n : Nat), (Event.normalized :: rest)[k]? = some (Event.extracted n) →
      ∃ j : Nat, j < k ∧ (Event.normalized :: rest)[j]? = some Event.normalized := by
  intro k n hk
  cases k with
  | zero => simp at hk
  | succ k' => exact ⟨0, Nat.zero_lt_succ _, by simp⟩

/-! ## Claim theorems for the pipeline -/

/-- C1: when extraction returns zero postings for the normalized text, the
run terminates successfully with an empty result list, reporting no error. -/
theorem process_url_zero_postings (env : Env) (raw : List Char)
    (hraw : env.raw = some raw) (hcl : clean_text raw ≠ [])
    (hex : env.extract (clean_text raw) = Except.ok []) :
    successResults (process_url env).2 = some [] ∧
      ∀ e, Event.errorReported e ∉ (process_url env).1 := by
  have hemp : (clean_text raw).isEmpty = false := by
    simpa [List.isEmpty_iff] using hcl
  have hp : process_url env =
      ([Event.normalized, Event.extracted 0, Event.warnedNoJobs],
        Outcome.zeroJobs) := by
    simp [process_url, load_and_process_url, hraw, hemp, hex]
  rw [hp]
  exact ⟨rfl, fun e => by simp⟩

/-- Witness for C1 in the concrete zero-posting environment. -/
theorem process_url_zero_postings_witness :
    successResults (process_url envNoJobs).2 = some [] ∧
      ∀ e, Event.errorReported e ∉ (process_url envNoJobs).1 :=
  process_url_zero_postings envNoJobs rawPage rfl (by decide) rfl

/-- C9: every run visits its stages in order — any `extracted` event is
preceded by `normalized`, and each posting's `composed` event is preceded by
that same posting's `matched` event (no posting is composed before it is
matched). -/
theorem process_url_stage_order (env : Env) (tr : List Event) (o : Outcome)
    (h : process_url env = (tr, o)) :
    (∀ (k n : Nat), tr[k]? = some (Event.extracted n) →
      ∃ j : Nat, j < k ∧ tr[j]? = some Event.normalized) ∧
    (∀ (k m : Nat), tr[k]? = some (Event.composed m) →
      ∃ j : Nat, j < k ∧ tr[j]? = some (Event.matched m)) := by
  rcases process_url_cases env with
    ⟨-, hp⟩ | ⟨raw, -, -, hp⟩ | ⟨raw, e, -, -, -, hp⟩ | ⟨raw, -, -, -, hp⟩ |
    ⟨raw, job, jobs, e, -, -, -, -, hp⟩ | ⟨raw, job, jobs, -, -, -, -, hp⟩ <;>
    injection h.symm.trans hp with htr ho <;> subst htr <;> subst ho
  · constructor
    · intro k n hk
      rcases k with _ | k' <;> simp at hk
    · intro k m hk
      rcases k with _ | k' <;> simp at hk
  · constructor
    · intro k n hk
      rcases k with _ | _ | k' <;> simp at hk
    · intro k m hk
      rcases k with _ | _ | k' <;> simp at hk
  · constructor
    · exact normalized_first _
    · intro k m hk
      rcases k with _ | _ | k' <;> simp at hk
  · constructor
    · exact normalized_first _
    · intro k m hk
      rcases k with _ | _ | _ | k' <;> simp at hk
  · constructor
    · exact normalized_first _
    · intro k m hk
      cases k with
      | zero => simp at hk
      | succ k' =>
        cases k' with
        | zero => simp at hk
        | succ k'' =>
          have hbody : ((emailLoop env 0 (job :: jobs)).1 ++
              [Event.errorReported e])[k'']? = some (Event.composed m) := by
            simpa using hk
          by_cases hlen : k'' < (emailLoop env 0 (job :: jobs)).1.length
          · rw [List.getElem?_append_left hlen] at hbody
            obtain ⟨j, hj, hget⟩ :=
              emailLoop_composed_after_matched env (job :: jobs) 0 k'' m hbody
            refine ⟨j + 2, by omega, ?_⟩
            simp only [List.getElem?_cons_succ]
            rw [List.getElem?_append_left (lt_trans hj hlen)]
            exact hget
          · rw [List.getElem?_append_right (Nat.le_of_not_lt hlen)] at hbody
            rcases hn : k'' - (emailLoop env 0 (job :: jobs)).1.length with - | n <;>
              rw [hn] at hbody <;> simp at hbody
  · constructor
    · exact normalized_first _
    · intro k m hk
      cases k with
      | zero => simp at hk
      | succ k' =>
        cases k' with
        | zero => simp at hk
        | succ k'' =>
          have hbody : (emailLoop env 0 (job :: jobs)).1[k'']? =
              some (Event.composed m) := by simpa using hk
          obtain ⟨j, hj, hget⟩ :=
            emailLoop_composed_after_matched env (job :: jobs) 0 k'' m hbody
          refine ⟨j + 2, by omega, ?_⟩
          simpa using hget

/-- Witness for C9 at a concrete run. -/
theorem process_url_stage_order_witness :
    (∀ (k n : Nat), (process_url envTwoPostings).1[k]? = some (Event.extracted n) →
      ∃ j : Nat, j < k ∧ (process_url envTwoPostings).1[j]? = some Event.normalized) ∧
    (∀ (k m : Nat), (process_url envTwoPostings).1[k]? = some (Event.composed m) →
      ∃ j : Nat, j < k ∧ (process_url envTwoPostings).1[j]? = some (Event.matched m)) :=
  process_url_stage_order envTwoPostings (process_url envTwoPostings).1
    (process_url envTwoPostings).2 rfl

/-- C10: `process_url` never propagates an exception to its caller — its
outcome is never `raised`, and every handled exception was converted into a
rendered error report in the trace. -/
theorem process_url_no_propagation (env : Env) (tr : List Event) (o : Outcome)
    (h : process_url env = (tr, o)) :
    (∀ e, o ≠ Outcome.raised e) ∧
    (∀ e, o = Outcome.handled e → Event.errorReported e ∈ tr) := by
  rcases process_url_cases env with
    ⟨-, hp⟩ | ⟨raw, -, -, hp⟩ | ⟨raw, e', -, -, -, hp⟩ | ⟨raw, -, -, -, hp⟩ |
    ⟨raw, job, jobs, e', -, -, -, -, hp⟩ | ⟨raw, job, jobs, -, -, -, -, hp⟩ <;>
    injection h.symm.trans hp with htr ho <;> subst htr <;> subst ho
  · exact ⟨fun e => by simp, fun e he => by simp at he⟩
  · exact ⟨fun e => by simp, fun e he => by simp at he⟩
  · refine ⟨fun e => by simp, fun e he => ?_⟩
    have : e' = e := Outcome.handled.inj he
    subst this
    simp
  · exact ⟨fun e => by simp, fun e he => by simp at he⟩
  · refine ⟨fun e => by simp, fun e he => ?_⟩
    have : e' = e := Outcome.handled.inj he
    subst this
    simp
  · exact ⟨fun e => by simp, fun e he => by simp at he⟩

/-- Witness for C10 at a concrete run. -/
theorem process_url_no_propagation_witness :
    (∀ e, (process_url envTwoPostings).2 ≠ Outcome.raised e) ∧
    (∀ e, (process_url envTwoPostings).2 = Outcome.handled e →
      Event.errorReported e ∈ (process_url envTwoPostings).1) :=
  process_url_no_propagation envTwoPostings (process_url envTwoPostings).1
    (process_url envTwoPostings).2 rfl

/-- C8: an empty or unloaded catalog makes every `queryLinks` call report
`CatalogUnavailableError`, and when every catalog query raises it, the
pipeline run composes no email at all and — as soon as any posting was
extracted — terminates with that error handled for the whole run. -/
theorem catalog_unavailable_fatal :
    (∀ skills topK, query_links [] skills topK =
        Except.error CatalogUnavailableError.catalogUnavailable) ∧
    (∀ env tr o,
      (∀ s, env.query s =
        Except.error (Exn.catalog CatalogUnavailableError.catalogUnavailable)) →
      process_url env = (tr, o) →
      (∀ i, Event.composed i ∉ tr) ∧
      (∀ raw job jobs, env.raw = some raw → clean_text raw ≠ [] →
        env.extract (clean_text raw) = Except.ok (job :: jobs) →
        o = Outcome.handled
          (Exn.catalog CatalogUnavailableError.catalogUnavailable))) := by
  constructor
  · intro skills topK
    rfl
  · intro env tr o hq h
    have hloopAll := emailLoop_query_fails env
      (Exn.catalog CatalogUnavailableError.catalogUnavailable) hq
    rcases process_url_cases env with
      ⟨hraw, hp⟩ | ⟨raw, hraw, hcl, hp⟩ | ⟨raw, e', hraw, hcl, hex, hp⟩ |
      ⟨raw, hraw, hcl, hex, hp⟩ | ⟨raw, job, jobs, e', hraw, hcl, hex, hloop, hp⟩ |
      ⟨raw, job, jobs, hraw, hcl, hex, hloop, hp⟩ <;>
      injection h.symm.trans hp with htr ho <;> subst htr <;> subst ho
    · refine ⟨fun i => by simp, ?_⟩
      intro raw job jobs hraw' _ _
      rw [hraw] at hraw'
      exact Option.noConfusion hraw'
    · refine ⟨fun i => by simp, ?_⟩
      intro raw' job jobs hraw' hcl' _
      rw [hraw] at hraw'
      have : raw = raw' := Option.some.inj hraw'
      subst this
      exact absurd hcl hcl'
    · refine ⟨fun i => by simp, ?_⟩
      intro raw' job jobs hraw' _ hex'
      rw [hraw] at hraw'
      have : raw = raw' := Option.some.inj hraw'
      subst this
      rw [hex] at hex'
      exact Except.noConfusion hex'
    · refine ⟨fun i => by simp, ?_⟩
      intro raw' job jobs hraw' _ hex'
      rw [hraw] at hraw'
      have : raw = raw' := Option.some.inj hraw'
      subst this
      rw [hex] at hex'
      exact List.noConfusion (Except.ok.inj hex')
    · obtain ⟨htr0, -, hesc⟩ := hloopAll (job :: jobs) 0
      have hsome : some e' =
          some (Exn.catalog CatalogUnavailableError.catalogUnavailable) := by
        rw [← hloop, hesc]
        simp
      have he' : e' = Exn.catalog CatalogUnavailableError.catalogUnavailable :=
        Option.some.inj hsome
      subst he'
      refine ⟨?_, fun _ _ _ _ _ _ => rfl⟩
      intro i
      rw [htr0]
      simp
    · obtain ⟨-, -, hesc⟩ := hloopAll (job :: jobs) 0
      rw [hloop] at hesc
      simp at hesc

/-- Witness for C8: the empty catalog errors on a concrete query, and the
concrete catalog-unavailable run composes nothing and ends handled. -/
theorem catalog_unavailable_fatal_witness :
    query_links [] ["python"] 3 =
        Except.error CatalogUnavailableError.catalogUnavailable ∧
      ((∀ i, Event.composed i ∉ (process_url envNoCatalog).1) ∧
        (∀ raw job jobs, envNoCatalog.raw = some raw → clean_text raw ≠ [] →
          envNoCatalog.extract (clean_text raw) = Except.ok (job :: jobs) →
          (process_url envNoCatalog).2 = Outcome.handled
            (Exn.catalog CatalogUnavailableError.catalogUnavailable))) :=
  ⟨catalog_unavailable_fatal.1 ["python"] 3,
    catalog_unavailable_fatal.2 envNoCatalog (process_url envNoCatalog).1
      (process_url envNoCatalog).2 (fun _ => rfl) rfl⟩

/-- Counterexample to C2 as stated: in `envTwoPostings` two postings are
extracted and composing the first raises `CompositionError`, yet the second
posting never proceeds to a composed email — the whole loop is aborted by the
catch-all handler and the terminal state carries no successful email. -/
theorem process_url_composition_counterexample :
    process_url envTwoPostings =
      ([Event.normalized, Event.extracted 2, Event.matched 0,
          Event.errorReported (Exn.composition CompositionError.emptyEmail)],
        Outcome.handled (Exn.composition CompositionError.emptyEmail)) ∧
      Event.composed 1 ∉ (process_url envTwoPostings).1 ∧
      successResults (process_url envTwoPostings).2 = none := by
  have hp : process_url envTwoPostings =
      ([Event.normalized, Event.extracted 2, Event.matched 0,
          Event.errorReported (Exn.composition CompositionError.emptyEmail)],
        Outcome.handled (Exn.composition CompositionError.emptyEmail)) := rfl
  refine ⟨hp, ?_, ?_⟩
  · rw [hp]
    decide
  · rw [hp]
    rfl

/-- C2 (amended): a `CompositionError` while composing posting `k` ends the
run at that posting — every earlier posting was matched and composed, neither
posting `k` nor any later posting is composed, a single error report is
rendered, and the run returns normally with the exception handled (partial
work before `k` is kept, but no per-posting failure entry or later success is
produced). -/
theorem process_url_composition_aborts (env : Env) (raw : List Char)
    (jobs : List JobPosting) (k : Nat) (jk : JobPosting) (e : CompositionError)
    (hraw : env.raw = some raw) (hcl : clean_text raw ≠ [])
    (hex : env.extract (clean_text raw) = Except.ok jobs)
    (hjk : jobs[k]? = some jk)
    (hok : ∀ p, p < k → ∀ jp, jobs[p]? = some jp →
      ∃ l em, env.query jp.skills = Except.ok l ∧
        env.compose jp l = Except.ok em)
    (hfail : ∃ l, env.query jk.skills = Except.ok l ∧
      env.compose jk l = Except.error (Exn.composition e)) :
    ∃ tr, process_url env = (tr, Outcome.handled (Exn.composition e)) ∧
      (∀ p, p < k → Event.composed p ∈ tr) ∧
      (∀ q, k ≤ q → Event.composed q ∉ tr) ∧
      Event.errorReported (Exn.composition e) ∈ tr := by
  have hemp : (clean_text raw).isEmpty = false := by
    simpa [List.isEmpty_iff] using hcl
  cases jobs with
  | nil => simp at hjk
  | cons job rest =>
    obtain ⟨hesc, hcomp, hcap⟩ := emailLoop_fail_at env (job :: rest) 0 k jk
      (Exn.composition e) hjk hok hfail
    refine ⟨Event.normalized :: Event.extracted (job :: rest).length ::
      ((emailLoop env 0 (job :: rest)).1 ++
        [Event.errorReported (Exn.composition e)]), ?_, ?_, ?_, ?_⟩
    · simp [process_url, load_and_process_url, hraw, hemp, hex, hesc]
    · intro p hp
      have hmem := hcomp p hp
      rw [Nat.zero_add] at hmem
      simp [hmem]
    · intro q hq hmem
      rcases List.mem_cons.mp hmem with h | hmem2
      · exact Event.noConfusion h
      rcases List.mem_cons.mp hmem2 with h | hmem3
      · exact Event.noConfusion h
      rcases List.mem_append.mp hmem3 with h | h
      · have := hcap q h
        omega
      · simp at h
    · simp

/-- Witness for C2 (amended), at scenario 4 exactly: composition fails for
the second of two postings; the first is composed, the second is not. -/
theorem process_url_composition_aborts_witness :
    ∃ tr, process_url envScenario4 =
        (tr, Outcome.handled (Exn.composition CompositionError.emptyEmail)) ∧
      (∀ p, p < 1 → Event.composed p ∈ tr) ∧
      (∀ q, 1 ≤ q → Event.composed q ∉ tr) ∧
      Event.errorReported (Exn.composition CompositionError.emptyEmail) ∈ tr :=
  process_url_composition_aborts envScenario4 rawPage [jobA, jobB] 1 jobB
    CompositionError.emptyEmail rfl (by decide) rfl (by decide)
    (by
      intro p hp jp hjp
      have hp0 : p = 0 := by omega
      subst hp0
      have hjp' : jp = jobA := by
        simpa using hjp.symm
      subst hjp'
      exact ⟨["https://portfolio.example/py-k8s"], "Offer email body", rfl,
        rfl⟩)
    ⟨["https://portfolio.example/py-k8s"], rfl, rfl⟩

end ColdEmail
